import Mathlib

/-! Shallow embedding of the exam-timetabling scripts
`src/versiones anteriores/Horario_cambiados.py` (top-level definitions) and
`src/versiones anteriores/horario_examenes.py` (namespace `HE`).
Python dicts are modelled as association lists kept in insertion order,
Python sets and frozensets as `Finset`, and the incidental iteration order
of the node set `G.nodes()` as an explicit `order : List String` parameter.
A Python run that raises is modelled with `Except`. -/

/-- Python dict from person identifier to that person's course list
(the decoded shape of `asignaciones_alumnos.json` / `asignaciones_profesores.json`). -/
abbrev Assignments := List (String × List String)

/-- Association-list lookup: Python `d[k]` and the test `k in d`. -/
def dictGet {α β : Type} [DecidableEq α] : List (α × β) → α → Option β
  | [], _ => none
  | p :: rest, a => if p.1 = a then some p.2 else dictGet rest a

/-- Lines 32-35 of Horario_cambiados.py: the known truncated course name is
replaced by its full form; every other name passes through unchanged. -/
def normalizeCourse (course : String) : String :=
  if course = "ntroducción a ciencia de la computación" then
    "Introducción a ciencia de la computación"
  else course

/-- Lines 30-37: the typo fix is applied to every student's course list
(and only to student lists). -/
def corrected_student_assignments (student_assignments : Assignments) : Assignments :=
  student_assignments.map (fun p => (p.1, p.2.map normalizeCourse))

/-- Lines 19-24: the `try/except FileNotFoundError` around loading
`asignaciones_profesores.json`. `none` models a missing file; the `Bool`
records whether the advisory message was printed. On a missing file the
professor map becomes the empty dict and the advisory is emitted. -/
def loadProfessorAssignments : Option Assignments → Assignments × Bool
  | some professor_assignments => (professor_assignments, false)
  | none => ([], true)

/-- Lines 40-44: the set of all courses appearing in either assignment map. -/
def all_courses (student_assignments professor_assignments : Assignments) : Finset String :=
  (student_assignments.flatMap Prod.snd).toFinset ∪
    (professor_assignments.flatMap Prod.snd).toFinset

/-- itertools.combinations(l, 2): all pairs (l[i], l[j]) with i < j, in order. -/
def pairCombos : List String → List (String × String)
  | [] => []
  | c :: rest => rest.map (fun d => (c, d)) ++ pairCombos rest

/-- The edge-generation loop shape shared by lines 59-64 and lines 67-71:
for every person, every 2-combination of that person's course list is added
to the edge set as a frozenset (here a `Finset String`). -/
def conflictEdges (assignments : Assignments) : Finset (Finset String) :=
  (assignments.flatMap
    (fun p => (pairCombos p.2).map (fun q => ({q.1, q.2} : Finset String)))).toFinset

/-- Lines 59-64, applied after the typo correction of lines 30-37. -/
def student_conflict_graph_edges (student_assignments : Assignments) : Finset (Finset String) :=
  conflictEdges (corrected_student_assignments student_assignments)

/-- Lines 67-71. -/
def professor_conflict_graph_edges (professor_assignments : Assignments) :
    Finset (Finset String) :=
  conflictEdges professor_assignments

/-- Line 75: union of the student and professor conflict edge sets. -/
def combined_conflict_graph_edges (student_assignments professor_assignments : Assignments) :
    Finset (Finset String) :=
  student_conflict_graph_edges student_assignments ∪
    professor_conflict_graph_edges professor_assignments

/-- The conflict graph: node set plus frozenset edges, as held by the
`networkx.Graph` object `G`. -/
structure Graph where
  nodes : Finset String
  edges : Finset (Finset String)
deriving DecidableEq

/-- Lines 78-86: `G.add_nodes_from(all_courses)` then, for every frozenset
edge, `course1, course2 = tuple(edge)` followed by `G.add_edge`. Unpacking a
frozenset of cardinality other than two raises a `ValueError`; `add_edge`
also inserts its endpoints into the node set. -/
def buildG (ns : Finset String) (es : Finset (Finset String)) : Except String Graph :=
  if ∀ e ∈ es, e.card = 2 then
    Except.ok { nodes := ns ∪ es.biUnion id, edges := es }
  else
    Except.error "ValueError: not enough values to unpack"

/-- networkx `G.neighbors(course)`: every other endpoint of an edge containing
`course`. -/
def Graph.neighbors (g : Graph) (course : String) : Finset String :=
  g.edges.biUnion (fun e => if course ∈ e then e.erase course else ∅)

/-- networkx `G.degree[course]` on a loop-free graph: the neighbor count. -/
def Graph.degree (g : Graph) (course : String) : Nat :=
  (g.neighbors course).card

/-- Insertion into a non-increasing list used to model Python's stable sort:
the new element is placed after every element of strictly larger key and
before the first element of smaller-or-equal key. -/
def insertDesc (deg : String → Nat) (a : String) : List String → List String
  | [] => [a]
  | b :: l => if deg a < deg b then b :: insertDesc deg a l else a :: b :: l

/-- Line 96: `sorted(G.nodes(), key=lambda node: G.degree[node], reverse=True)`.
Python's sort is stable, so it is extensionally the stable insertion sort by
descending degree of the iteration order of `G.nodes()`. -/
def sorted_nodes (deg : String → Nat) : List String → List String
  | [] => []
  | a :: l => insertDesc deg a (sorted_nodes deg l)

/-- Lines 106-111: the slot numbers already used by the already-colored
neighbors of `node`. -/
def used_neighbor_colors (g : Graph) (col : List (String × Nat)) (node : String) : Finset Nat :=
  (g.neighbors node).biUnion (fun neighbor =>
    match dictGet col neighbor with
    | some c => {c}
    | none => ∅)

/-- Lines 115-117: `color = 1; while color in used_neighbor_colors: color += 1`,
with explicit fuel (the loop stops as soon as a free color is found, and
`used.card + 1` candidates always contain a free one). -/
def whileColor (used : Finset Nat) : Nat → Nat → Nat
  | color, 0 => color
  | color, fuel + 1 => if color ∈ used then whileColor used (color + 1) fuel else color

/-- The color the while loop of lines 115-117 settles on. -/
def chosenColor (used : Finset Nat) : Nat := whileColor used 1 (used.card + 1)

/-- One iteration of the loop of lines 105-118: record the chosen color for
`node` at the end of the coloring dict. -/
def colorStep (g : Graph) (col : List (String × Nat)) (node : String) : List (String × Nat) :=
  col ++ [(node, chosenColor (used_neighbor_colors g col node))]

/-- The loop of lines 105-118 over the remaining nodes. -/
def coloringLoop (g : Graph) : List (String × Nat) → List String → List (String × Nat)
  | col, [] => col
  | col, node :: rest => coloringLoop g (colorStep g col node) rest

/-- Lines 99-118: the complete greedy coloring dict, keyed in assignment order. -/
def coloring (g : Graph) (nodesInOrder : List String) : List (String × Nat) :=
  coloringLoop g [] nodesInOrder

/-- Lines 122-125, one iteration: append `course` to the bucket of its slot,
creating the bucket on first use. -/
def scheduleInsert (sched : List (Nat × List String)) (time_slot : Nat) (course : String) :
    List (Nat × List String) :=
  match dictGet sched time_slot with
  | some _ => sched.map (fun p => if p.1 = time_slot then (p.1, p.2 ++ [course]) else p)
  | none => sched ++ [(time_slot, [course])]

/-- Lines 121-125: group the coloring dict by assigned slot. -/
def scheduleLoop : List (Nat × List String) → List (String × Nat) → List (Nat × List String)
  | sched, [] => sched
  | sched, (course, time_slot) :: rest => scheduleLoop (scheduleInsert sched time_slot course) rest

/-- The schedule dict of lines 121-125: slot number to courses in that slot. -/
def schedule (col : List (String × Nat)) : List (Nat × List String) :=
  scheduleLoop [] col

/-- Lines 133-135: maximum number of simultaneous exams over all slots. -/
def max_simultaneous_exams (sched : List (Nat × List String)) : Nat :=
  sched.foldl (fun acc p => Nat.max acc p.2.length) 0

/-- Line 142: the label `f"Aula {i + 1}"` given to the course at index `i`. -/
def roomLabel (i : Nat) : String := "Aula " ++ Nat.repr (i + 1)

/-- Lines 138-142: inside every slot, the i-th course receives room `Aula i+1`. -/
def room_assignments (sched : List (Nat × List String)) : List (Nat × List (String × String)) :=
  sched.map (fun p => (p.1, p.2.enum.map (fun q => (q.2, roomLabel q.1))))

/-- The outputs the script hands to the report and visualization sections. -/
structure Output where
  coloringOut : List (String × Nat)
  scheduleOut : List (Nat × List String)
  roomsOut : List (Nat × List (String × String))
  peakRooms : Nat
deriving DecidableEq

deriving instance DecidableEq for Except

/-- Lines 30-86 composed: corrected student map, node set, combined edges,
graph construction. -/
def pipelineGraph (student_assignments professor_assignments : Assignments) :
    Except String Graph :=
  buildG (all_courses (corrected_student_assignments student_assignments) professor_assignments)
    (combined_conflict_graph_edges student_assignments professor_assignments)

/-- Lines 96-142 composed: sort, color, group, allocate rooms. -/
def runFromGraph (g : Graph) (order : List String) : Output :=
  let sorted := sorted_nodes g.degree order
  let col := coloring g sorted
  let sched := schedule col
  { coloringOut := col, scheduleOut := sched,
    roomsOut := room_assignments sched, peakRooms := max_simultaneous_exams sched }

/-- The whole script Horario_cambiados.py on decoded inputs: the `Bool` is the
missing-professor-file advisory, the `Except` is the run outcome. -/
def runPipeline (student_assignments : Assignments) (professorFile : Option Assignments)
    (order : List String) : Bool × Except String Output :=
  let loaded := loadProfessorAssignments professorFile
  (loaded.2,
    match pipelineGraph student_assignments loaded.1 with
    | Except.error e => Except.error e
    | Except.ok g => Except.ok (runFromGraph g order))

/-- An `order` list faithfully enumerating the iteration order of `G.nodes()`:
each node exactly once. -/
abbrev validOrder (g : Graph) (order : List String) : Prop :=
  order.Nodup ∧ order.toFinset = g.nodes

/-- Conflict provenance of an edge, as the visualization of lines 170-172
reconstructs it from the two edge sets. -/
inductive Origin
  | Student
  | Instructor
  | Both
deriving DecidableEq

/-- Lines 170-172: an edge in both sets is shared (`Both`), an edge only in
the student set is student-caused, otherwise instructor-caused. -/
def edgeOrigin (studentEdges professorEdges : Finset (Finset String)) (e : Finset String) :
    Origin :=
  if e ∈ studentEdges then
    (if e ∈ professorEdges then Origin.Both else Origin.Student)
  else Origin.Instructor

/-- Two courses share a person of the given assignment map (the spec's notion
of a justified conflict). -/
def sharesPerson (assignments : Assignments) (x y : String) : Prop :=
  ∃ p ∈ assignments, x ∈ p.2 ∧ y ∈ p.2

/-- Digit value of one of the characters produced by `Nat.digitChar`. -/
def digitVal (c : Char) : Nat := c.toNat - ('0').toNat

/-- Reading a digit string back to a number, most significant digit first. -/
def valFrom (a : Nat) (ds : List Char) : Nat :=
  ds.foldl (fun acc c => acc * 10 + digitVal c) a

namespace HE

/-- Lines 26-29 of horario_examenes.py (identical to the later script). -/
def normalizeCourse (course : String) : String :=
  if course = "ntroducción a ciencia de la computación" then
    "Introducción a ciencia de la computación"
  else course

/-- Lines 24-31 of horario_examenes.py. -/
def corrected_student_assignments (student_assignments : Assignments) : Assignments :=
  student_assignments.map (fun p => (p.1, p.2.map HE.normalizeCourse))

/-- Lines 34-38 of horario_examenes.py. -/
def all_courses (student_assignments professor_assignments : Assignments) : Finset String :=
  (student_assignments.flatMap Prod.snd).toFinset ∪
    (professor_assignments.flatMap Prod.snd).toFinset

/-- The edge loops of lines 53-58 and 61-65 of horario_examenes.py. -/
def conflictEdges (assignments : Assignments) : Finset (Finset String) :=
  (assignments.flatMap
    (fun p => (pairCombos p.2).map (fun q => ({q.1, q.2} : Finset String)))).toFinset

/-- Lines 53-58 of horario_examenes.py, after the typo correction. -/
def student_conflict_graph_edges (student_assignments : Assignments) : Finset (Finset String) :=
  HE.conflictEdges (HE.corrected_student_assignments student_assignments)

/-- Lines 61-65 of horario_examenes.py. -/
def professor_conflict_graph_edges (professor_assignments : Assignments) :
    Finset (Finset String) :=
  HE.conflictEdges professor_assignments

/-- Line 68 of horario_examenes.py. -/
def combined_conflict_graph_edges (student_assignments professor_assignments : Assignments) :
    Finset (Finset String) :=
  HE.student_conflict_graph_edges student_assignments ∪
    HE.professor_conflict_graph_edges professor_assignments

/-- Lines 71-79 of horario_examenes.py: graph construction with frozenset
unpacking. -/
def buildG (ns : Finset String) (es : Finset (Finset String)) : Except String Graph :=
  if ∀ e ∈ es, e.card = 2 then
    Except.ok { nodes := ns ∪ es.biUnion id, edges := es }
  else
    Except.error "ValueError: not enough values to unpack"

/-- Line 89 of horario_examenes.py. -/
def sorted_nodes (deg : String → Nat) : List String → List String
  | [] => []
  | a :: l => insertDesc deg a (HE.sorted_nodes deg l)

/-- Lines 99-104 of horario_examenes.py. -/
def used_neighbor_colors (g : Graph) (col : List (String × Nat)) (node : String) : Finset Nat :=
  (g.neighbors node).biUnion (fun neighbor =>
    match dictGet col neighbor with
    | some c => {c}
    | none => ∅)

/-- Lines 108-110 of horario_examenes.py. -/
def whileColor (used : Finset Nat) : Nat → Nat → Nat
  | color, 0 => color
  | color, fuel + 1 => if color ∈ used then HE.whileColor used (color + 1) fuel else color

/-- One iteration of lines 98-111 of horario_examenes.py. -/
def colorStep (g : Graph) (col : List (String × Nat)) (node : String) : List (String × Nat) :=
  let used := HE.used_neighbor_colors g col node
  col ++ [(node, HE.whileColor used 1 (used.card + 1))]

/-- The loop of lines 98-111 of horario_examenes.py. -/
def coloringLoop (g : Graph) : List (String × Nat) → List String → List (String × Nat)
  | col, [] => col
  | col, node :: rest => HE.coloringLoop g (HE.colorStep g col node) rest

/-- Lines 92-111 of horario_examenes.py. -/
def coloring (g : Graph) (nodesInOrder : List String) : List (String × Nat) :=
  HE.coloringLoop g [] nodesInOrder

/-- Lines 114-118 of horario_examenes.py. -/
def scheduleLoop : List (Nat × List String) → List (String × Nat) → List (Nat × List String)
  | sched, [] => sched
  | sched, (course, time_slot) :: rest =>
      HE.scheduleLoop (scheduleInsert sched time_slot course) rest

/-- Lines 114-118 of horario_examenes.py from the empty dict. -/
def schedule (col : List (String × Nat)) : List (Nat × List String) :=
  HE.scheduleLoop [] col

/-- Lines 126-128 of horario_examenes.py. -/
def max_simultaneous_exams (sched : List (Nat × List String)) : Nat :=
  sched.foldl (fun acc p => Nat.max acc p.2.length) 0

/-- Lines 131-135 of horario_examenes.py. -/
def room_assignments (sched : List (Nat × List String)) : List (Nat × List (String × String)) :=
  sched.map (fun p => (p.1, p.2.enum.map (fun q => (q.2, roomLabel q.1))))

/-- Lines 24-79 of horario_examenes.py composed (the professor file must
exist: there is no try/except in this version). -/
def pipelineGraph (student_assignments professor_assignments : Assignments) :
    Except String Graph :=
  HE.buildG
    (HE.all_courses (HE.corrected_student_assignments student_assignments) professor_assignments)
    (HE.combined_conflict_graph_edges student_assignments professor_assignments)

/-- Lines 89-135 of horario_examenes.py composed. -/
def runFromGraph (g : Graph) (order : List String) : Output :=
  let sorted := HE.sorted_nodes g.degree order
  let col := HE.coloring g sorted
  let sched := HE.schedule col
  { coloringOut := col, scheduleOut := sched,
    roomsOut := HE.room_assignments sched, peakRooms := HE.max_simultaneous_exams sched }

/-- The whole script horario_examenes.py on decoded inputs. -/
def runPipeline (student_assignments professor_assignments : Assignments)
    (order : List String) : Except String Output :=
  match HE.pipelineGraph student_assignments professor_assignments with
  | Except.error e => Except.error e
  | Except.ok g => Except.ok (HE.runFromGraph g order)

end HE

section DictGetLemmas

variable {α β : Type} [DecidableEq α]

theorem dictGet_append_left {xs ys : List (α × β)} {a : α} {v : β}
    (h : dictGet xs a = some v) : dictGet (xs ++ ys) a = some v := by
  induction xs with
  | nil => simp [dictGet] at h
  | cons p rest ih =>
      by_cases hp : p.1 = a
      · simpa [dictGet, hp] using h
      · simp only [dictGet, hp, if_false] at h ⊢
        simpa [dictGet, hp] using ih h

theorem dictGet_append_right {xs : List (α × β)} {a : α}
    (h : dictGet xs a = none) (ys : List (α × β)) :
    dictGet (xs ++ ys) a = dictGet ys a := by
  induction xs with
  | nil => simp
  | cons p rest ih =>
      by_cases hp : p.1 = a
      · simp [dictGet, hp] at h
      · simp only [dictGet, hp, if_false] at h
        simpa [dictGet, hp] using ih h

theorem dictGet_eq_none_iff {xs : List (α × β)} {a : α} :
    dictGet xs a = none ↔ a ∉ xs.map Prod.fst := by
  induction xs with
  | nil => simp [dictGet]
  | cons p rest ih =>
      by_cases hp : p.1 = a <;> simp [dictGet, hp, ih] <;> tauto

theorem dictGet_isSome_iff {xs : List (α × β)} {a : α} :
    (dictGet xs a).isSome ↔ a ∈ xs.map Prod.fst := by
  rcases h : dictGet xs a with _ | v
  · simpa [h] using dictGet_eq_none_iff.mp h
  · simp only [Option.isSome_some, true_iff]
    by_contra hmem
    rw [dictGet_eq_none_iff.mpr hmem] at h
    exact Option.noConfusion h

theorem dictGet_singleton {a b : α} {v : β} :
    dictGet [(a, v)] b = if a = b then some v else none := rfl

theorem dictGet_of_mem {xs : List (α × β)} (hn : (xs.map Prod.fst).Nodup)
    {a : α} {v : β} (h : (a, v) ∈ xs) : dictGet xs a = some v := by
  induction xs with
  | nil => simp at h
  | cons p rest ih =>
      simp only [List.map_cons, List.nodup_cons] at hn
      rcases List.mem_cons.mp h with h | h
      · simp [dictGet, ← h]
      · have hne : p.1 ≠ a := by
          intro hpa
          exact hn.1 (hpa ▸ (List.mem_map.mpr ⟨(a, v), h, rfl⟩))
        simp [dictGet, hne, ih hn.2 h]

end DictGetLemmas

section WhileColorLemmas

theorem whileColor_eq (used : Finset Nat) :
    ∀ (fuel color k : Nat), color + k ∉ used → (∀ j < k, color + j ∈ used) →
      k < fuel → whileColor used color fuel = color + k := by
  intro fuel
  induction fuel with
  | zero => intro color k _ _ hk; omega
  | succ f ih =>
      intro color k hout hin hk
      rcases Nat.eq_zero_or_pos k with rfl | hkpos
      · have : color ∉ used := by simpa using hout
        simp [whileColor, this]
      · have hcolor : color ∈ used := by simpa using hin 0 hkpos
        have : whileColor used color (f + 1) = whileColor used (color + 1) f := by
          simp [whileColor, hcolor]
        rw [this]
        have hout' : color + 1 + (k - 1) ∉ used := by
          have : color + 1 + (k - 1) = color + k := by omega
          rwa [this]
        have hin' : ∀ j < k - 1, color + 1 + j ∈ used := by
          intro j hj
          have : color + 1 + j = color + (j + 1) := by omega
          rw [this]
          exact hin (j + 1) (by omega)
        have := ih (color + 1) (k - 1) hout' hin' (by omega)
        rw [this]
        omega

theorem exists_missing_le_card (used : Finset Nat) : ∃ k ≤ used.card, (1 + k) ∉ used := by
  by_contra hall
  push_neg at hall
  have hsub : (Finset.range (used.card + 1)).image (fun k => 1 + k) ⊆ used := by
    intro x hx
    rcases Finset.mem_image.mp hx with ⟨k, hk, rfl⟩
    exact hall k (by simpa using Nat.lt_succ_iff.mp (Finset.mem_range.mp hk))
  have hcard := Finset.card_le_card hsub
  rw [Finset.card_image_of_injective _ (fun a b h => by omega)] at hcard
  simp at hcard

theorem chosenColor_spec (used : Finset Nat) :
    chosenColor used ∉ used ∧ 1 ≤ chosenColor used ∧
      (∀ m, 1 ≤ m → m ∉ used → chosenColor used ≤ m) ∧
      chosenColor used ≤ used.card + 1 := by
  obtain ⟨kb, hkb, hkbout⟩ := exists_missing_le_card used
  have hex : ∃ k, (1 + k) ∉ used := ⟨kb, hkbout⟩
  set k0 := Nat.find hex with hk0
  have hout : (1 + k0) ∉ used := Nat.find_spec hex
  have hin : ∀ j < k0, 1 + j ∈ used := by
    intro j hj
    by_contra hjout
    have hle : k0 ≤ j := hk0 ▸ Nat.find_min' hex hjout
    omega
  have hk0le : k0 ≤ kb := hk0 ▸ Nat.find_min' hex hkbout
  have heq : chosenColor used = 1 + k0 :=
    whileColor_eq used (used.card + 1) 1 k0 hout hin (by omega)
  refine ⟨heq ▸ hout, by omega, ?_, by omega⟩
  intro m hm hmout
  have hsub : (1 + (m - 1)) ∉ used := by
    have harith : 1 + (m - 1) = m := by omega
    rwa [harith]
  have := hk0 ▸ Nat.find_min' hex hsub
  omega

end WhileColorLemmas

section GraphLemmas

theorem mem_neighbors {g : Graph} {a b : String} :
    a ∈ g.neighbors b ↔ ∃ e ∈ g.edges, b ∈ e ∧ a ∈ e ∧ a ≠ b := by
  unfold Graph.neighbors
  simp only [Finset.mem_biUnion]
  constructor
  · rintro ⟨e, he, ha⟩
    by_cases hb : b ∈ e
    · rw [if_pos hb, Finset.mem_erase] at ha
      exact ⟨e, he, hb, ha.2, ha.1⟩
    · rw [if_neg hb] at ha
      simp at ha
  · rintro ⟨e, he, hb, ha, hne⟩
    exact ⟨e, he, by rw [if_pos hb, Finset.mem_erase]; exact ⟨hne, ha⟩⟩

theorem neighbors_comm {g : Graph} {a b : String} :
    a ∈ g.neighbors b ↔ b ∈ g.neighbors a := by
  rw [mem_neighbors, mem_neighbors]
  constructor <;> rintro ⟨e, he, h1, h2, h3⟩ <;> exact ⟨e, he, h2, h1, h3.symm⟩

theorem mem_neighbors_of_edge {g : Graph} {a b : String}
    (he : ({a, b} : Finset String) ∈ g.edges) (hne : a ≠ b) : a ∈ g.neighbors b := by
  rw [mem_neighbors]
  exact ⟨{a, b}, he, by simp, by simp, hne⟩

theorem not_mem_neighbors_self {g : Graph} {a : String} : a ∉ g.neighbors a := by
  rw [mem_neighbors]
  rintro ⟨e, _, _, _, hne⟩
  exact hne rfl

theorem buildG_ok_iff {ns : Finset String} {es : Finset (Finset String)} {g : Graph} :
    buildG ns es = Except.ok g ↔
      (∀ e ∈ es, e.card = 2) ∧ g = ⟨ns ∪ es.biUnion id, es⟩ := by
  unfold buildG
  by_cases h : ∀ e ∈ es, e.card = 2
  · rw [if_pos h]
    constructor
    · intro hok
      injection hok with hg
      exact ⟨h, hg.symm⟩
    · rintro ⟨-, rfl⟩
      rfl
  · rw [if_neg h]
    constructor
    · intro hok
      exact absurd hok (by simp)
    · rintro ⟨h2, -⟩
      exact absurd h2 h

theorem buildG_edge_card {ns : Finset String} {es : Finset (Finset String)} {g : Graph}
    (h : buildG ns es = Except.ok g) : ∀ e ∈ g.edges, e.card = 2 := by
  obtain ⟨h2, rfl⟩ := buildG_ok_iff.mp h
  exact h2

theorem buildG_edge_subset_nodes {ns : Finset String} {es : Finset (Finset String)} {g : Graph}
    (h : buildG ns es = Except.ok g) : ∀ e ∈ g.edges, ∀ x ∈ e, x ∈ g.nodes := by
  obtain ⟨_, rfl⟩ := buildG_ok_iff.mp h
  intro e he x hx
  exact Finset.mem_union_right _ (Finset.mem_biUnion.mpr ⟨e, he, hx⟩)

end GraphLemmas

section EdgeSetLemmas

theorem mem_conflictEdges {assignments : Assignments} {e : Finset String} :
    e ∈ conflictEdges assignments ↔
      ∃ p ∈ assignments, ∃ q ∈ pairCombos p.2, e = ({q.1, q.2} : Finset String) := by
  unfold conflictEdges
  simp only [List.mem_toFinset, List.mem_flatMap, List.mem_map]
  constructor
  · rintro ⟨p, hp, q, hq, rfl⟩
    exact ⟨p, hp, q, hq, rfl⟩
  · rintro ⟨p, hp, q, hq, rfl⟩
    exact ⟨p, hp, q, hq, rfl⟩

theorem pairCombos_sound {l : List String} {q : String × String} (h : q ∈ pairCombos l) :
    q.1 ∈ l ∧ q.2 ∈ l := by
  induction l with
  | nil => simp [pairCombos] at h
  | cons c rest ih =>
      simp only [pairCombos, List.mem_append, List.mem_map] at h
      rcases h with ⟨d, hd, rfl⟩ | h
      · exact ⟨by simp, by simp [hd]⟩
      · exact ⟨List.mem_cons_of_mem _ (ih h).1, List.mem_cons_of_mem _ (ih h).2⟩

theorem pairCombos_complete {l : List String} {x y : String}
    (hx : x ∈ l) (hy : y ∈ l) (hne : x ≠ y) :
    ∃ q ∈ pairCombos l, ({q.1, q.2} : Finset String) = {x, y} := by
  induction l with
  | nil => simp at hx
  | cons c rest ih =>
      rcases List.mem_cons.mp hx with rfl | hx'
      · have hy' : y ∈ rest := by
          rcases List.mem_cons.mp hy with rfl | hy'
          · exact absurd rfl hne
          · exact hy'
        refine ⟨(x, y), ?_, rfl⟩
        simp only [pairCombos, List.mem_append, List.mem_map]
        exact Or.inl ⟨y, hy', rfl⟩
      · rcases List.mem_cons.mp hy with rfl | hy'
        · refine ⟨(y, x), ?_, ?_⟩
          · simp only [pairCombos, List.mem_append, List.mem_map]
            exact Or.inl ⟨x, hx', rfl⟩
          · exact Finset.pair_comm y x
        · obtain ⟨q, hq, hqe⟩ := ih hx' hy'
          refine ⟨q, ?_, hqe⟩
          simp only [pairCombos, List.mem_append]
          exact Or.inr hq

theorem pairCombos_ne_of_nodup {l : List String} (hl : l.Nodup) {q : String × String}
    (h : q ∈ pairCombos l) : q.1 ≠ q.2 := by
  induction l with
  | nil => simp [pairCombos] at h
  | cons c rest ih =>
      simp only [List.nodup_cons] at hl
      simp only [pairCombos, List.mem_append, List.mem_map] at h
      rcases h with ⟨d, hd, rfl⟩ | h
      · intro hcd
        simp only at hcd
        exact hl.1 (hcd ▸ hd)
      · exact ih hl.2 h

theorem conflictEdges_card_two {assignments : Assignments}
    (hnd : ∀ p ∈ assignments, (p.2 : List String).Nodup) :
    ∀ e ∈ conflictEdges assignments, e.card = 2 := by
  intro e he
  obtain ⟨p, hp, q, hq, rfl⟩ := mem_conflictEdges.mp he
  exact Finset.card_pair (pairCombos_ne_of_nodup (hnd p hp) hq)

end EdgeSetLemmas

section SortLemmas

theorem insertDesc_perm (deg : String → Nat) (a : String) (l : List String) :
    List.Perm (insertDesc deg a l) (a :: l) := by
  induction l with
  | nil => simp [insertDesc]
  | cons b l ih =>
      by_cases h : deg a < deg b
      · rw [insertDesc, if_pos h]
        exact ((ih.cons b).trans (List.Perm.swap a b l))
      · rw [insertDesc, if_neg h]

theorem sorted_nodes_perm (deg : String → Nat) (l : List String) :
    List.Perm (sorted_nodes deg l) l := by
  induction l with
  | nil => simp [sorted_nodes]
  | cons a l ih =>
      exact (insertDesc_perm deg a (sorted_nodes deg l)).trans (ih.cons a)

theorem mem_sorted_nodes {deg : String → Nat} {l : List String} {x : String} :
    x ∈ sorted_nodes deg l ↔ x ∈ l :=
  (sorted_nodes_perm deg l).mem_iff

theorem sorted_nodes_nodup {deg : String → Nat} {l : List String} (h : l.Nodup) :
    (sorted_nodes deg l).Nodup :=
  ((sorted_nodes_perm deg l).nodup_iff).mpr h

theorem insertDesc_pairwise {deg : String → Nat} {a : String} {l : List String}
    (h : l.Pairwise (fun x y => deg y ≤ deg x)) :
    (insertDesc deg a l).Pairwise (fun x y => deg y ≤ deg x) := by
  induction l with
  | nil => simp [insertDesc]
  | cons b l ih =>
      rcases List.pairwise_cons.mp h with ⟨hb, hl⟩
      by_cases hab : deg a < deg b
      · rw [insertDesc, if_pos hab]
        refine List.pairwise_cons.mpr ⟨?_, ih hl⟩
        intro x hx
        rcases List.mem_cons.mp ((insertDesc_perm deg a l).mem_iff.mp hx) with rfl | hx'
        · omega
        · exact hb x hx'
      · rw [insertDesc, if_neg hab]
        refine List.pairwise_cons.mpr ⟨?_, h⟩
        intro x hx
        rcases List.mem_cons.mp hx with rfl | hx'
        · omega
        · have := hb x hx'
          omega

theorem sorted_nodes_pairwise (deg : String → Nat) (l : List String) :
    (sorted_nodes deg l).Pairwise (fun x y => deg y ≤ deg x) := by
  induction l with
  | nil => simp [sorted_nodes]
  | cons a l ih => exact insertDesc_pairwise ih

theorem insertDesc_filter_eq {deg : String → Nat} {a : String} (l : List String) :
    (insertDesc deg a l).filter (fun b => deg b = deg a) =
      a :: l.filter (fun b => deg b = deg a) := by
  induction l with
  | nil => simp [insertDesc]
  | cons b l ih =>
      by_cases hab : deg a < deg b
      · rw [insertDesc, if_pos hab]
        have hbne : ¬(deg b = deg a) := by omega
        simp [List.filter_cons, hbne, ih]
      · rw [insertDesc, if_neg hab]
        simp [List.filter_cons]

theorem insertDesc_filter_ne {deg : String → Nat} {a : String} {d : Nat}
    (hne : deg a ≠ d) (l : List String) :
    (insertDesc deg a l).filter (fun b => deg b = d) = l.filter (fun b => deg b = d) := by
  induction l with
  | nil => simp [insertDesc, hne]
  | cons b l ih =>
      by_cases hab : deg a < deg b
      · rw [insertDesc, if_pos hab]
        simp only [List.filter_cons, ih]
      · rw [insertDesc, if_neg hab]
        simp [List.filter_cons, hne]

theorem sorted_nodes_filter_eq (deg : String → Nat) (d : Nat) (l : List String) :
    (sorted_nodes deg l).filter (fun b => deg b = d) = l.filter (fun b => deg b = d) := by
  induction l with
  | nil => simp [sorted_nodes]
  | cons a l ih =>
      rw [sorted_nodes]
      by_cases had : deg a = d
      · subst had
        rw [insertDesc_filter_eq, ih]
        simp [List.filter_cons]
      · rw [insertDesc_filter_ne had, ih]
        simp [List.filter_cons, had]

end SortLemmas

section ColoringLemmas

theorem coloringLoop_append (g : Graph) (l1 l2 : List String) :
    ∀ col, coloringLoop g col (l1 ++ l2) = coloringLoop g (coloringLoop g col l1) l2 := by
  induction l1 with
  | nil => intro col; rfl
  | cons n rest ih =>
      intro col
      rw [List.cons_append, coloringLoop, coloringLoop]
      exact ih (colorStep g col n)

theorem coloringLoop_keys (g : Graph) (l : List String) :
    ∀ col, (coloringLoop g col l).map Prod.fst = col.map Prod.fst ++ l := by
  induction l with
  | nil => intro col; simp [coloringLoop]
  | cons n rest ih =>
      intro col
      rw [coloringLoop, ih, colorStep]
      simp

theorem coloringLoop_prefix (g : Graph) (l : List String) :
    ∀ col, ∃ t, coloringLoop g col l = col ++ t ∧ t.map Prod.fst = l := by
  induction l with
  | nil => intro col; exact ⟨[], by simp [coloringLoop]⟩
  | cons n rest ih =>
      intro col
      obtain ⟨t, ht, hkeys⟩ := ih (colorStep g col n)
      refine ⟨(n, chosenColor (used_neighbor_colors g col n)) :: t, ?_, by simp [hkeys]⟩
      rw [coloringLoop, ht, colorStep]
      simp

theorem coloringLoop_lookup_stable {g : Graph} {col : List (String × Nat)} {a : String}
    {v : Nat} (h : dictGet col a = some v) (l : List String) :
    dictGet (coloringLoop g col l) a = some v := by
  obtain ⟨t, ht, -⟩ := coloringLoop_prefix g l col
  rw [ht]
  exact dictGet_append_left h

theorem coloring_assigned {g : Graph} {pre suf : List String} {node : String}
    (hpre : node ∉ pre) (hsuf : node ∉ suf) :
    dictGet (coloring g (pre ++ node :: suf)) node =
      some (chosenColor (used_neighbor_colors g (coloring g pre) node)) := by
  unfold coloring
  rw [coloringLoop_append, coloringLoop]
  set cpre := coloringLoop g [] pre with hcpre
  have hkeys : cpre.map Prod.fst = pre := by
    simpa using coloringLoop_keys g pre []
  have hnone : dictGet cpre node = none := by
    rw [dictGet_eq_none_iff, hkeys]
    exact hpre
  obtain ⟨t, ht, htkeys⟩ := coloringLoop_prefix g suf (colorStep g cpre node)
  rw [ht, colorStep]
  rw [List.append_assoc]
  rw [dictGet_append_right hnone]
  have : dictGet ([(node, chosenColor (used_neighbor_colors g cpre node))] ++ t) node =
      some (chosenColor (used_neighbor_colors g cpre node)) := by
    simp [dictGet]
  exact this

theorem mem_used_neighbor_colors {g : Graph} {col : List (String × Nat)} {node nb : String}
    {c : Nat} (hnb : nb ∈ g.neighbors node) (hc : dictGet col nb = some c) :
    c ∈ used_neighbor_colors g col node := by
  unfold used_neighbor_colors
  rw [Finset.mem_biUnion]
  exact ⟨nb, hnb, by rw [hc]; simp⟩

theorem used_neighbor_colors_card_le (g : Graph) (col : List (String × Nat)) (node : String) :
    (used_neighbor_colors g col node).card ≤ g.degree node := by
  unfold used_neighbor_colors Graph.degree
  calc ((g.neighbors node).biUnion _).card
      ≤ ∑ nb ∈ g.neighbors node,
          (match dictGet col nb with
            | some c => ({c} : Finset Nat)
            | none => ∅).card := Finset.card_biUnion_le
    _ ≤ ∑ _nb ∈ g.neighbors node, 1 := by
        refine Finset.sum_le_sum ?_
        intro nb _
        rcases dictGet col nb with _ | c <;> simp
    _ = (g.neighbors node).card := by simp

end ColoringLemmas

section ProperColoring

theorem dictGet_snoc_cases {col : List (String × Nat)} {n x : String} {c v : Nat}
    (h : dictGet (col ++ [(n, c)]) x = some v) :
    dictGet col x = some v ∨ (x = n ∧ dictGet col x = none ∧ v = c) := by
  rcases hcol : dictGet col x with _ | w
  · right
    rw [dictGet_append_right hcol] at h
    rw [dictGet_singleton] at h
    by_cases hnx : n = x
    · rw [if_pos hnx] at h
      injection h with hv
      exact ⟨hnx.symm, rfl, hv.symm⟩
    · rw [if_neg hnx] at h
      exact Option.noConfusion h
  · left
    rw [dictGet_append_left hcol] at h
    exact h

theorem coloringLoop_proper (g : Graph) :
    ∀ (l : List String) (col : List (String × Nat)),
      (∀ a b ca cb, a ∈ g.neighbors b → dictGet col a = some ca →
        dictGet col b = some cb → ca ≠ cb) →
      (∀ n ∈ l, n ∉ col.map Prod.fst) →
      l.Nodup →
      ∀ a b ca cb, a ∈ g.neighbors b → dictGet (coloringLoop g col l) a = some ca →
        dictGet (coloringLoop g col l) b = some cb → ca ≠ cb := by
  intro l
  induction l with
  | nil => intro col hinv _ _; exact hinv
  | cons n rest ih =>
      intro col hinv hfresh hnd
      rw [coloringLoop]
      have hnmem : n ∉ col.map Prod.fst := hfresh n (List.mem_cons_self n rest)
      have hnd' := List.nodup_cons.mp hnd
      refine ih (colorStep g col n) ?_ ?_ hnd'.2
      · intro a b ca cb hadj ha hb
        rw [colorStep] at ha hb
        rcases dictGet_snoc_cases ha with ha' | ⟨rfl, hanone, rfl⟩
        · rcases dictGet_snoc_cases hb with hb' | ⟨rfl, hbnone, rfl⟩
          · exact hinv a b ca cb hadj ha' hb'
          · -- b is the freshly colored node: the neighbor a's color is forbidden
            have : ca ∈ used_neighbor_colors g col b :=
              mem_used_neighbor_colors hadj ha'
            intro hcontra
            exact (chosenColor_spec (used_neighbor_colors g col b)).1 (hcontra ▸ this)
        · rcases dictGet_snoc_cases hb with hb' | ⟨hbn, hbnone, rfl⟩
          · -- a is the freshly colored node
            have hbadj : b ∈ g.neighbors a := neighbors_comm.mp hadj
            have : cb ∈ used_neighbor_colors g col a :=
              mem_used_neighbor_colors hbadj hb'
            intro hcontra
            exact (chosenColor_spec (used_neighbor_colors g col a)).1 (hcontra ▸ this)
          · -- both equal the fresh node: impossible, no self-neighborhood
            subst hbn
            exact absurd hadj not_mem_neighbors_self
      · intro m hm
        rw [colorStep, List.map_append]
        simp only [List.map_cons, List.map_nil, List.mem_append, List.mem_singleton]
        rintro (hmem | rfl)
        · exact hfresh m (List.mem_cons_of_mem n hm) hmem
        · exact hnd'.1 hm

theorem coloringLoop_bounded (g : Graph) :
    ∀ (l : List String) (col : List (String × Nat)),
      (∀ x cx, dictGet col x = some cx → cx ≤ 1 + g.degree x) →
      ∀ x cx, dictGet (coloringLoop g col l) x = some cx → cx ≤ 1 + g.degree x := by
  intro l
  induction l with
  | nil => intro col hinv; exact hinv
  | cons n rest ih =>
      intro col hinv
      rw [coloringLoop]
      refine ih (colorStep g col n) ?_
      intro x cx hx
      rw [colorStep] at hx
      rcases dictGet_snoc_cases hx with hx' | ⟨rfl, -, rfl⟩
      · exact hinv x cx hx'
      · have h1 := (chosenColor_spec (used_neighbor_colors g col x)).2.2.2
        have h2 := used_neighbor_colors_card_le g col x
        omega

end ProperColoring

section ScheduleLemmas

theorem dictGet_mem {α β : Type} [DecidableEq α] {xs : List (α × β)} {a : α} {v : β}
    (h : dictGet xs a = some v) : (a, v) ∈ xs := by
  induction xs with
  | nil => simp [dictGet] at h
  | cons p rest ih =>
      obtain ⟨p1, p2⟩ := p
      by_cases hp : p1 = a
      · rw [dictGet, if_pos hp] at h
        injection h with hv
        subst hp
        subst hv
        exact List.mem_cons_self _ _
      · rw [dictGet, if_neg hp] at h
        exact List.mem_cons_of_mem _ (ih h)

theorem map_upd_of_not_mem {sched : List (Nat × List String)} {t : Nat} {c : String}
    (h : t ∉ sched.map Prod.fst) :
    sched.map (fun p => if p.1 = t then (p.1, p.2 ++ [c]) else p) = sched := by
  induction sched with
  | nil => rfl
  | cons p rest ih =>
      simp only [List.map_cons, List.mem_cons] at h ⊢
      push_neg at h
      rw [if_neg (fun hc => h.1 hc.symm), ih h.2]

theorem dictGet_map_upd {sched : List (Nat × List String)}
    (hn : (sched.map Prod.fst).Nodup) {t : Nat} {l : List String} {c : String}
    (hget : dictGet sched t = some l) (s : Nat) :
    dictGet (sched.map (fun p => if p.1 = t then (p.1, p.2 ++ [c]) else p)) s =
      if s = t then some (l ++ [c]) else dictGet sched s := by
  induction sched with
  | nil => simp [dictGet] at hget
  | cons p rest ih =>
      simp only [List.map_cons, List.nodup_cons] at hn
      by_cases hpt : p.1 = t
      · rw [dictGet, if_pos hpt] at hget
        injection hget with hl
        have hrest : t ∉ rest.map Prod.fst := hpt ▸ hn.1
        rw [List.map_cons, if_pos hpt, map_upd_of_not_mem hrest]
        by_cases hst : s = t
        · rw [dictGet, if_pos (hpt.trans hst.symm), if_pos hst, hl]
        · rw [dictGet, if_neg (fun hc => hst ((hpt ▸ hc : t = s)).symm), if_neg hst,
            dictGet, if_neg (fun hc => hst ((hpt ▸ hc : t = s)).symm)]
      · rw [dictGet, if_neg hpt] at hget
        rw [List.map_cons, if_neg hpt]
        by_cases hps : p.1 = s
        · have hst : ¬(s = t) := fun hc => hpt (hps.trans hc)
          rw [dictGet, if_pos hps, if_neg hst, dictGet, if_pos hps]
        · rw [dictGet, if_neg hps, ih hn.2 hget, dictGet, if_neg hps]

theorem dictGet_scheduleInsert {sched : List (Nat × List String)}
    (hn : (sched.map Prod.fst).Nodup) (t : Nat) (c : String) (s : Nat) :
    dictGet (scheduleInsert sched t c) s =
      if s = t then some ((dictGet sched t).getD [] ++ [c]) else dictGet sched s := by
  rcases hget : dictGet sched t with _ | l
  · simp only [scheduleInsert, hget]
    by_cases hst : s = t
    · rw [if_pos hst, hst, dictGet_append_right hget, dictGet_singleton, if_pos rfl]
      rfl
    · rw [if_neg hst]
      rcases hs : dictGet sched s with _ | w
      · rw [dictGet_append_right hs, dictGet_singleton, if_neg (fun hc => hst hc.symm)]
      · exact dictGet_append_left hs
  · simp only [scheduleInsert, hget]
    rw [dictGet_map_upd hn hget s]
    rfl

theorem scheduleInsert_keys_nodup {sched : List (Nat × List String)}
    (hn : (sched.map Prod.fst).Nodup) (t : Nat) (c : String) :
    ((scheduleInsert sched t c).map Prod.fst).Nodup := by
  rcases hget : dictGet sched t with _ | l
  · rw [scheduleInsert, hget, List.map_append]
    refine hn.append (by simp) ?_
    intro x hx hx'
    simp only [List.map_cons, List.map_nil, List.mem_singleton] at hx'
    subst hx'
    exact (dictGet_eq_none_iff.mp hget) hx
  · rw [scheduleInsert, hget, List.map_map]
    have : (Prod.fst ∘ fun p : Nat × List String =>
        if p.1 = t then (p.1, p.2 ++ [c]) else p) = Prod.fst := by
      funext p
      by_cases hp : p.1 = t <;> simp [hp]
    rw [this]
    exact hn

theorem scheduleLoop_spec :
    ∀ (col : List (String × Nat)) (sched : List (Nat × List String)),
      (sched.map Prod.fst).Nodup →
      ((scheduleLoop sched col).map Prod.fst).Nodup ∧
      (∀ t, (dictGet (scheduleLoop sched col) t).getD [] =
        (dictGet sched t).getD [] ++ (col.filter (fun p => p.2 = t)).map Prod.fst) ∧
      (∀ t, dictGet (scheduleLoop sched col) t = none ↔
        (dictGet sched t = none ∧ col.filter (fun p => p.2 = t) = [])) := by
  intro col
  induction col with
  | nil =>
      intro sched hn
      exact ⟨hn, fun t => by simp [scheduleLoop], fun t => by simp [scheduleLoop]⟩
  | cons entry rest ih =>
      intro sched hn
      obtain ⟨course, slot⟩ := entry
      rw [scheduleLoop]
      have hn' := scheduleInsert_keys_nodup hn slot course
      obtain ⟨ihn, ihval, ihnone⟩ := ih (scheduleInsert sched slot course) hn'
      refine ⟨ihn, ?_, ?_⟩
      · intro t
        rw [ihval t, dictGet_scheduleInsert hn slot course t]
        by_cases hts : t = slot
        · subst hts
          rw [if_pos rfl]
          simp only [List.filter_cons]
          rw [if_pos (by simp)]
          simp
        · rw [if_neg hts]
          simp only [List.filter_cons]
          rw [if_neg (by simpa using fun hc => hts hc.symm)]
      · intro t
        rw [ihnone t, dictGet_scheduleInsert hn slot course t]
        by_cases hts : t = slot
        · subst hts
          rw [if_pos rfl]
          simp only [List.filter_cons]
          rw [if_pos (by simp)]
          simp
        · rw [if_neg hts]
          simp only [List.filter_cons]
          rw [if_neg (by simpa using fun hc => hts hc.symm)]

theorem schedule_keys_nodup (col : List (String × Nat)) :
    ((schedule col).map Prod.fst).Nodup :=
  (scheduleLoop_spec col [] (by simp)).1

theorem schedule_getD (col : List (String × Nat)) (t : Nat) :
    (dictGet (schedule col) t).getD [] = (col.filter (fun p => p.2 = t)).map Prod.fst := by
  have := (scheduleLoop_spec col [] (by simp)).2.1 t
  simpa [schedule, dictGet] using this

theorem schedule_none_iff (col : List (String × Nat)) (t : Nat) :
    dictGet (schedule col) t = none ↔ col.filter (fun p => p.2 = t) = [] := by
  have := (scheduleLoop_spec col [] (by simp)).2.2 t
  simpa [schedule, dictGet] using this

theorem mem_schedule_eq_filter {col : List (String × Nat)} {t : Nat} {lst : List String}
    (h : (t, lst) ∈ schedule col) :
    lst = (col.filter (fun p => p.2 = t)).map Prod.fst ∧ lst ≠ [] := by
  have hget : dictGet (schedule col) t = some lst :=
    dictGet_of_mem (schedule_keys_nodup col) h
  have hval := schedule_getD col t
  rw [hget] at hval
  simp only [Option.getD_some] at hval
  refine ⟨hval, ?_⟩
  intro hnil
  have hmap : (col.filter (fun p => p.2 = t)).map Prod.fst = [] := hval.symm.trans hnil
  have hfil : col.filter (fun p => p.2 = t) = [] := List.map_eq_nil.mp hmap
  rw [← schedule_none_iff col t] at hfil
  rw [hget] at hfil
  exact Option.noConfusion hfil

end ScheduleLemmas

section MaxLemmas

theorem foldl_max_init_le (sched : List (Nat × List String)) :
    ∀ a : Nat, a ≤ sched.foldl (fun acc p => Nat.max acc p.2.length) a := by
  induction sched with
  | nil => intro a; simp
  | cons p rest ih =>
      intro a
      rw [List.foldl_cons]
      exact le_trans (Nat.le_max_left a p.2.length) (ih _)

theorem foldl_max_mem_le {sched : List (Nat × List String)} {p : Nat × List String}
    (hp : p ∈ sched) : ∀ a : Nat, p.2.length ≤ sched.foldl (fun acc q => Nat.max acc q.2.length) a := by
  induction sched with
  | nil => simp at hp
  | cons q rest ih =>
      intro a
      rw [List.foldl_cons]
      rcases List.mem_cons.mp hp with rfl | hp'
      · exact le_trans (Nat.le_max_right a p.2.length) (foldl_max_init_le rest _)
      · exact ih hp' _

theorem foldl_max_attained (sched : List (Nat × List String)) :
    ∀ a : Nat, sched.foldl (fun acc q => Nat.max acc q.2.length) a = a ∨
      ∃ p ∈ sched, sched.foldl (fun acc q => Nat.max acc q.2.length) a = p.2.length := by
  induction sched with
  | nil => intro a; left; rfl
  | cons q rest ih =>
      intro a
      rw [List.foldl_cons]
      rcases ih (Nat.max a q.2.length) with h | ⟨p, hp, h⟩
      · by_cases hab : q.2.length ≤ a
        · left
          rw [h]
          exact Nat.max_eq_left hab
        · right
          refine ⟨q, List.mem_cons_self _ _, ?_⟩
          rw [h]
          exact Nat.max_eq_right (by omega)
      · right
        exact ⟨p, List.mem_cons_of_mem _ hp, h⟩

theorem max_simultaneous_exams_ge {sched : List (Nat × List String)} {p : Nat × List String}
    (hp : p ∈ sched) : p.2.length ≤ max_simultaneous_exams sched :=
  foldl_max_mem_le hp 0

theorem max_simultaneous_exams_attained (sched : List (Nat × List String)) :
    max_simultaneous_exams sched = 0 ∨
      ∃ p ∈ sched, max_simultaneous_exams sched = p.2.length :=
  foldl_max_attained sched 0

end MaxLemmas

section ReprInjective

theorem digitVal_digitChar : ∀ d < 10, digitVal (Nat.digitChar d) = d := by decide

theorem toDigitsCore_shift (fuel : Nat) :
    ∀ (n : Nat) (ds : List Char),
      Nat.toDigitsCore 10 fuel n ds = Nat.toDigitsCore 10 fuel n [] ++ ds := by
  induction fuel with
  | zero => intro n ds; rfl
  | succ f ih =>
      intro n ds
      simp only [Nat.toDigitsCore]
      by_cases h : n / 10 = 0
      · rw [if_pos h, if_pos h]
        rfl
      · rw [if_neg h, if_neg h, ih (n / 10) [Nat.digitChar (n % 10)],
          ih (n / 10) (Nat.digitChar (n % 10) :: ds), List.append_assoc]
        rfl

theorem valFrom_append_digit (a : Nat) (ds : List Char) (c : Char) :
    valFrom a (ds ++ [c]) = valFrom a ds * 10 + digitVal c := by
  unfold valFrom
  rw [List.foldl_append]
  rfl

theorem valFrom_toDigitsCore (fuel : Nat) :
    ∀ (n a : Nat), n < fuel →
      valFrom a (Nat.toDigitsCore 10 fuel n []) =
        a * 10 ^ (Nat.toDigitsCore 10 fuel n []).length + n := by
  induction fuel with
  | zero => intro n a h; omega
  | succ f ih =>
      intro n a h
      simp only [Nat.toDigitsCore]
      by_cases h10 : n / 10 = 0
      · rw [if_pos h10]
        have hlt : n < 10 := by omega
        have hmod : n % 10 = n := Nat.mod_eq_of_lt hlt
        unfold valFrom
        simp only [List.foldl_cons, List.foldl_nil, List.length_cons, List.length_nil]
        rw [digitVal_digitChar (n % 10) (Nat.mod_lt n (by omega)), hmod]
        ring
      · rw [if_neg h10]
        have hpos : 0 < n := by
          by_contra hc
          push_neg at hc
          interval_cases n
          simp at h10
        have hdiv_lt : n / 10 < n := Nat.div_lt_self hpos (by omega)
        have hdiv_f : n / 10 < f := by omega
        rw [toDigitsCore_shift f (n / 10) [Nat.digitChar (n % 10)]]
        rw [valFrom_append_digit, ih (n / 10) a hdiv_f]
        rw [digitVal_digitChar (n % 10) (Nat.mod_lt n (by omega))]
        rw [List.length_append, List.length_singleton]
        set L := (Nat.toDigitsCore 10 f (n / 10) []).length with hL
        have hnm : n / 10 * 10 + n % 10 = n := by omega
        calc (a * 10 ^ L + n / 10) * 10 + n % 10
            = a * 10 ^ (L + 1) + (n / 10 * 10 + n % 10) := by ring
          _ = a * 10 ^ (L + 1) + n := by rw [hnm]

theorem valFrom_toDigits (n : Nat) : valFrom 0 (Nat.toDigits 10 n) = n := by
  unfold Nat.toDigits
  rw [valFrom_toDigitsCore (n + 1) n 0 (Nat.lt_succ_self n)]
  simp

theorem Nat_repr_injective : Function.Injective Nat.repr := by
  intro m n h
  unfold Nat.repr at h
  have hdata : (Nat.toDigits 10 m) = (Nat.toDigits 10 n) := by
    have := congrArg String.data h
    simpa [List.asString] using this
  have hm := valFrom_toDigits m
  have hn := valFrom_toDigits n
  rw [← hm, ← hn, hdata]

theorem roomLabel_injective : Function.Injective roomLabel := by
  intro i j h
  unfold roomLabel at h
  have hdata := congrArg String.data h
  rw [String.data_append, String.data_append] at hdata
  have hrepr : (Nat.repr (i + 1)).data = (Nat.repr (j + 1)).data :=
    List.append_cancel_left hdata
  have := Nat_repr_injective (String.ext hrepr)
  omega

end ReprInjective

section MoreHelpers

theorem nodup_middle {s t : List String} {x : String} (h : (s ++ x :: t).Nodup) :
    x ∉ s ∧ x ∉ t := by
  rw [List.nodup_append] at h
  obtain ⟨-, hxt, hdisj⟩ := h
  refine ⟨fun hxs => hdisj hxs (List.mem_cons_self x t), ?_⟩
  exact (List.nodup_cons.mp hxt).1

theorem room_labels_eq (lst : List String) :
    (lst.enum.map (fun q => ((q.2 : String), roomLabel q.1))).map Prod.snd =
      (List.range lst.length).map roomLabel := by
  rw [List.map_map]
  have : (Prod.snd ∘ fun q : Nat × String => (q.2, roomLabel q.1)) = roomLabel ∘ Prod.fst := by
    funext q
    rfl
  rw [this, ← List.map_map, List.enum_map_fst]

theorem room_courses_eq (lst : List String) :
    (lst.enum.map (fun q => ((q.2 : String), roomLabel q.1))).map Prod.fst = lst := by
  rw [List.map_map]
  have : (Prod.fst ∘ fun q : Nat × String => (q.2, roomLabel q.1)) = Prod.snd := by
    funext q
    rfl
  rw [this, List.enum_map_snd]

theorem mem_combined_iff {student_assignments professor_assignments : Assignments}
    (hs : ∀ p ∈ corrected_student_assignments student_assignments, (p.2 : List String).Nodup)
    (hp : ∀ p ∈ professor_assignments, (p.2 : List String).Nodup) (e : Finset String) :
    e ∈ combined_conflict_graph_edges student_assignments professor_assignments ↔
      ∃ x y, x ≠ y ∧ e = ({x, y} : Finset String) ∧
        (sharesPerson (corrected_student_assignments student_assignments) x y ∨
          sharesPerson professor_assignments x y) := by
  unfold combined_conflict_graph_edges student_conflict_graph_edges
    professor_conflict_graph_edges sharesPerson
  rw [Finset.mem_union]
  constructor
  · rintro (he | he)
    · obtain ⟨p, hpmem, q, hq, rfl⟩ := mem_conflictEdges.mp he
      obtain ⟨h1, h2⟩ := pairCombos_sound hq
      exact ⟨q.1, q.2, pairCombos_ne_of_nodup (hs p hpmem) hq, rfl,
        Or.inl ⟨p, hpmem, h1, h2⟩⟩
    · obtain ⟨p, hpmem, q, hq, rfl⟩ := mem_conflictEdges.mp he
      obtain ⟨h1, h2⟩ := pairCombos_sound hq
      exact ⟨q.1, q.2, pairCombos_ne_of_nodup (hp p hpmem) hq, rfl,
        Or.inr ⟨p, hpmem, h1, h2⟩⟩
  · rintro ⟨x, y, hne, rfl, ⟨p, hpm, hx, hy⟩ | ⟨p, hpm, hx, hy⟩⟩
    · obtain ⟨q, hq, hqe⟩ := pairCombos_complete hx hy hne
      exact Or.inl (mem_conflictEdges.mpr ⟨p, hpm, q, hq, hqe.symm⟩)
    · obtain ⟨q, hq, hqe⟩ := pairCombos_complete hx hy hne
      exact Or.inr (mem_conflictEdges.mpr ⟨p, hpm, q, hq, hqe.symm⟩)

theorem combined_card_two {student_assignments professor_assignments : Assignments}
    (hs : ∀ p ∈ corrected_student_assignments student_assignments, (p.2 : List String).Nodup)
    (hp : ∀ p ∈ professor_assignments, (p.2 : List String).Nodup) :
    ∀ e ∈ combined_conflict_graph_edges student_assignments professor_assignments,
      e.card = 2 := by
  intro e he
  unfold combined_conflict_graph_edges student_conflict_graph_edges
    professor_conflict_graph_edges at he
  rcases Finset.mem_union.mp he with h | h
  · exact conflictEdges_card_two hs e h
  · exact conflictEdges_card_two hp e h

end MoreHelpers

/-- C1: for every pair of input assignment maps whose conflict graph is built
successfully, and every faithful iteration order of the node set, the greedy
coloring is proper: the two endpoints of every edge of the conflict graph
receive different slots. -/
theorem C1_proper_coloring
    (student_assignments professor_assignments : Assignments) (order : List String)
    (g : Graph)
    (hbuild : pipelineGraph student_assignments professor_assignments = Except.ok g)
    (horder : validOrder g order) :
    ∀ a b, ({a, b} : Finset String) ∈ g.edges →
      ∃ ca cb, dictGet (coloring g (sorted_nodes g.degree order)) a = some ca ∧
        dictGet (coloring g (sorted_nodes g.degree order)) b = some cb ∧ ca ≠ cb := by
  unfold pipelineGraph at hbuild
  intro a b hedge
  have hcard := buildG_edge_card hbuild _ hedge
  have hne : a ≠ b := by
    intro hc
    subst hc
    simp at hcard
  have hax : a ∈ g.nodes := buildG_edge_subset_nodes hbuild _ hedge a (by simp)
  have hbx : b ∈ g.nodes := buildG_edge_subset_nodes hbuild _ hedge b (by simp)
  have hnodup : (sorted_nodes g.degree order).Nodup := sorted_nodes_nodup horder.1
  have hamem : a ∈ sorted_nodes g.degree order := by
    rw [mem_sorted_nodes, ← List.mem_toFinset, horder.2]
    exact hax
  have hbmem : b ∈ sorted_nodes g.degree order := by
    rw [mem_sorted_nodes, ← List.mem_toFinset, horder.2]
    exact hbx
  have hkeys : (coloring g (sorted_nodes g.degree order)).map Prod.fst =
      sorted_nodes g.degree order := by
    simpa using coloringLoop_keys g (sorted_nodes g.degree order) []
  have hsa : (dictGet (coloring g (sorted_nodes g.degree order)) a).isSome :=
    dictGet_isSome_iff.mpr (by rw [hkeys]; exact hamem)
  have hsb : (dictGet (coloring g (sorted_nodes g.degree order)) b).isSome :=
    dictGet_isSome_iff.mpr (by rw [hkeys]; exact hbmem)
  obtain ⟨ca, hca⟩ := Option.isSome_iff_exists.mp hsa
  obtain ⟨cb, hcb⟩ := Option.isSome_iff_exists.mp hsb
  refine ⟨ca, cb, hca, hcb, ?_⟩
  have hadj : a ∈ g.neighbors b := mem_neighbors_of_edge hedge hne
  have hinit : ∀ a b ca cb, a ∈ g.neighbors b → dictGet ([] : List (String × Nat)) a = some ca →
      dictGet ([] : List (String × Nat)) b = some cb → ca ≠ cb := by
    intro _ _ _ _ _ hcontr
    simp [dictGet] at hcontr
  exact coloringLoop_proper g (sorted_nodes g.degree order) [] hinit (by simp) hnodup
    a b ca cb hadj hca hcb

/-- C3: each node, at its position in the degree-descending processing order,
is assigned exactly the smallest positive slot not used by its already-colored
neighbors; on a graph with zero edges every node of the order is assigned
slot 1. -/
theorem C3_smallest_free_slot (g : Graph) (order pre suf : List String) (node : String)
    (horder : validOrder g order)
    (hsplit : sorted_nodes g.degree order = pre ++ node :: suf) :
    (∃ c, dictGet (coloring g (sorted_nodes g.degree order)) node = some c ∧
      1 ≤ c ∧ c ∉ used_neighbor_colors g (coloring g pre) node ∧
      ∀ m, 1 ≤ m → m ∉ used_neighbor_colors g (coloring g pre) node → c ≤ m) ∧
    (g.edges = ∅ →
      ∀ x ∈ order, dictGet (coloring g (sorted_nodes g.degree order)) x = some 1) := by
  constructor
  · have hnodup : (sorted_nodes g.degree order).Nodup := sorted_nodes_nodup horder.1
    rw [hsplit] at hnodup
    obtain ⟨hpre, hsuf⟩ := nodup_middle hnodup
    refine ⟨chosenColor (used_neighbor_colors g (coloring g pre) node), ?_, ?_, ?_, ?_⟩
    · rw [hsplit]
      exact coloring_assigned hpre hsuf
    · exact (chosenColor_spec _).2.1
    · exact (chosenColor_spec _).1
    · exact fun m hm hmout => (chosenColor_spec _).2.2.1 m hm hmout
  · intro hempty x hx
    have hxs : x ∈ sorted_nodes g.degree order := mem_sorted_nodes.mpr hx
    obtain ⟨s, t, hst⟩ := List.append_of_mem hxs
    have hnodup : (sorted_nodes g.degree order).Nodup := sorted_nodes_nodup horder.1
    rw [hst] at hnodup
    obtain ⟨hxpre, hxsuf⟩ := nodup_middle hnodup
    rw [hst, coloring_assigned hxpre hxsuf]
    have hnb : g.neighbors x = ∅ := by
      unfold Graph.neighbors
      rw [hempty]
      rfl
    have hu : used_neighbor_colors g (coloring g s) x = ∅ := by
      unfold used_neighbor_colors
      rw [hnb]
      rfl
    rw [hu]
    rfl

/-- C9: the greedy coloring is total and bounded: whatever slot the loop
records for a node is at most one plus that node's degree, so the inner
while loop of lines 115-117 checks at most 1 + degree candidate slots. -/
theorem C9_slot_bound (g : Graph) (nodesInOrder : List String) (node : String) (c : Nat)
    (h : dictGet (coloring g nodesInOrder) node = some c) : c ≤ 1 + g.degree node := by
  refine coloringLoop_bounded g nodesInOrder [] ?_ node c h
  intro x cx hx
  simp [dictGet] at hx

/-- C2 (amended): when every person's course list is duplicate-free after
normalization, the combined conflict edge set is exactly the set of unordered
pairs of distinct courses sharing a student (of the corrected student map) or
an instructor: no false negatives and no false positives. -/
theorem C2_conflict_exactness (student_assignments professor_assignments : Assignments)
    (hs : ∀ p ∈ corrected_student_assignments student_assignments, (p.2 : List String).Nodup)
    (hp : ∀ p ∈ professor_assignments, (p.2 : List String).Nodup) :
    ∀ e, e ∈ combined_conflict_graph_edges student_assignments professor_assignments ↔
      ∃ x y, x ≠ y ∧ e = ({x, y} : Finset String) ∧
        (sharesPerson (corrected_student_assignments student_assignments) x y ∨
          sharesPerson professor_assignments x y) :=
  fun e => mem_combined_iff hs hp e

/-- C2 (counterexample to the claim as stated): a student list with a repeated
course yields the singleton frozenset as an element of the combined edge set,
which is not an unordered pair of two distinct courses, so the edge set is not
exactly the claimed pair set on this input. -/
theorem C2_counterexample :
    ({"A"} : Finset String) ∈ combined_conflict_graph_edges [("s", ["A", "A"])] [] ∧
    ∀ x y : String, x ≠ y → ({"A"} : Finset String) ≠ ({x, y} : Finset String) := by
  constructor
  · decide
  · intro x y hxy hc
    have hcard := congrArg Finset.card hc
    rw [Finset.card_singleton, Finset.card_pair hxy] at hcard
    exact absurd hcard (by decide)

/-- C8 (amended): when every person's course list is duplicate-free after
normalization, graph construction succeeds and the graph is simple: every
edge is a two-element frozenset, no self-loop frozenset occurs, each
unordered pair is recorded once in the edge set, and a pair produced by both
a student and an instructor has origin Both. -/
theorem C8_simple_graph (student_assignments professor_assignments : Assignments)
    (hs : ∀ p ∈ corrected_student_assignments student_assignments, (p.2 : List String).Nodup)
    (hp : ∀ p ∈ professor_assignments, (p.2 : List String).Nodup) :
    (∃ g, pipelineGraph student_assignments professor_assignments = Except.ok g ∧
      (∀ x : String, ({x} : Finset String) ∉ g.edges) ∧
      (∀ e ∈ g.edges, e.card = 2) ∧
      g.edges = combined_conflict_graph_edges student_assignments professor_assignments) ∧
    (∀ e, e ∈ student_conflict_graph_edges student_assignments →
      e ∈ professor_conflict_graph_edges professor_assignments →
      edgeOrigin (student_conflict_graph_edges student_assignments)
        (professor_conflict_graph_edges professor_assignments) e = Origin.Both) := by
  constructor
  · have hcard := combined_card_two hs hp
    refine ⟨⟨all_courses (corrected_student_assignments student_assignments)
        professor_assignments ∪
        (combined_conflict_graph_edges student_assignments professor_assignments).biUnion id,
      combined_conflict_graph_edges student_assignments professor_assignments⟩, ?_, ?_, ?_, rfl⟩
    · unfold pipelineGraph
      exact buildG_ok_iff.mpr ⟨hcard, rfl⟩
    · intro x hx
      have := hcard _ hx
      rw [Finset.card_singleton] at this
      exact absurd this (by decide)
    · exact hcard
  · intro e hse hpe
    unfold edgeOrigin
    rw [if_pos hse, if_pos hpe]

/-- C8 (counterexample to the claim as stated): with a repeated course name in
a person's list the script does not construct a simple graph at all; the
frozenset unpacking of line 85 raises a ValueError, so no graph is produced
for this input. -/
theorem C8_counterexample :
    pipelineGraph [("s", ["A", "A"])] [] =
      Except.error "ValueError: not enough values to unpack" ∧
    ∀ g : Graph, pipelineGraph [("s", ["A", "A"])] [] ≠ Except.ok g := by
  constructor
  · decide
  · intro g hc
    rw [(by decide : pipelineGraph [("s", ["A", "A"])] [] =
      Except.error "ValueError: not enough values to unpack")] at hc
    exact Except.noConfusion hc

/-- C4: the computed peak room count is the maximum over all slots of the
number of courses whose color is that slot; each slot of the schedule gets a
room entry covering exactly its courses with pairwise-distinct room labels,
one per course; and every nonempty slot reuses the label Aula 1, so the same
label recurs across different slots. -/
theorem C4_room_allocation (col : List (String × Nat)) :
    (∀ t : Nat, (col.filter (fun p => p.2 = t)).length ≤
      max_simultaneous_exams (schedule col)) ∧
    (max_simultaneous_exams (schedule col) = 0 ∨
      ∃ t : Nat, (col.filter (fun p => p.2 = t)).length =
        max_simultaneous_exams (schedule col)) ∧
    (∀ t lst, (t, lst) ∈ schedule col →
      ∃ r, (t, r) ∈ room_assignments (schedule col) ∧ r.map Prod.fst = lst ∧
        (r.map Prod.snd).Nodup ∧ r.length = lst.length ∧
        (lst ≠ [] → "Aula 1" ∈ r.map Prod.snd)) := by
  refine ⟨?_, ?_, ?_⟩
  · intro t
    rcases hfil : col.filter (fun p => p.2 = t) with _ | ⟨q, rest⟩
    · rw [hfil]
      exact Nat.zero_le _
    · have hnone : ¬(dictGet (schedule col) t = none) := by
        rw [schedule_none_iff, hfil]
        simp
      rcases hget : dictGet (schedule col) t with _ | lst
      · exact absurd hget hnone
      · have hmem : (t, lst) ∈ schedule col := dictGet_mem hget
        have hval := schedule_getD col t
        rw [hget] at hval
        simp only [Option.getD_some] at hval
        have hlen : (col.filter (fun p => p.2 = t)).length = lst.length := by
          rw [hval, List.length_map]
        rw [hlen]
        exact max_simultaneous_exams_ge hmem
  · rcases max_simultaneous_exams_attained (schedule col) with h | ⟨p, hp, h⟩
    · exact Or.inl h
    · right
      refine ⟨p.1, ?_⟩
      have hpmem : (p.1, p.2) ∈ schedule col := by
        rcases p with ⟨p1, p2⟩
        exact hp
      obtain ⟨hval, -⟩ := mem_schedule_eq_filter hpmem
      rw [h, hval, List.length_map]
  · intro t lst hmem
    refine ⟨lst.enum.map (fun q => (q.2, roomLabel q.1)), ?_, ?_, ?_, ?_, ?_⟩
    · unfold room_assignments
      exact List.mem_map_of_mem (fun p => (p.1, p.2.enum.map (fun q => (q.2, roomLabel q.1))))
        hmem
    · exact room_courses_eq lst
    · rw [room_labels_eq]
      exact (List.nodup_range lst.length).map roomLabel_injective
    · rw [List.length_map, List.enum_length]
    · intro hne
      rw [room_labels_eq]
      have hpos : 0 < lst.length := List.length_pos.mpr hne
      have h0 : (0 : Nat) ∈ List.range lst.length := List.mem_range.mpr hpos
      have : roomLabel 0 = "Aula 1" := by decide
      rw [← this]
      exact List.mem_map_of_mem roomLabel h0

/-- C5 (counterexample to the claim as stated): two faithful iteration orders
of the same two-course input produce different pipeline outputs, so the
output is not determined by the input alone and equal-degree ties are not
broken by a fixed secondary key. -/
theorem C5_counterexample :
    pipelineGraph [("s1", ["A"]), ("s2", ["B"])] [] =
      Except.ok ⟨{"A", "B"}, ∅⟩ ∧
    validOrder ⟨{"A", "B"}, ∅⟩ ["A", "B"] ∧
    validOrder ⟨{"A", "B"}, ∅⟩ ["B", "A"] ∧
    runPipeline [("s1", ["A"]), ("s2", ["B"])] (some []) ["A", "B"] ≠
      runPipeline [("s1", ["A"]), ("s2", ["B"])] (some []) ["B", "A"] := by
  refine ⟨by decide, by decide, by decide, by decide⟩

/-- C5 (amended): the node processing order is exactly the stable
descending-degree sort of the incidental iteration order: it is a permutation
of it, its degrees are non-increasing, and nodes of equal degree keep the
iteration order. So the pipeline is a function of the input together with the
set-iteration order, with equal-degree ties broken by that incidental order
rather than by a fixed secondary key. -/
theorem C5_stable_sort_characterization (deg : String → Nat) (order : List String) :
    List.Perm (sorted_nodes deg order) order ∧
    List.Pairwise (fun a b => deg b ≤ deg a) (sorted_nodes deg order) ∧
    ∀ d : Nat, (sorted_nodes deg order).filter (fun b => deg b = d) =
      order.filter (fun b => deg b = d) :=
  ⟨sorted_nodes_perm deg order, sorted_nodes_pairwise deg order,
    fun d => sorted_nodes_filter_eq deg d order⟩

/-- C6: when the professor assignment file is absent the run does not fail on
that account: the advisory is emitted, the professor map is treated as the
empty dict, professor-caused edges vanish, and the pipeline behaves exactly
as on an explicitly empty professor map, using only student-derived edges. -/
theorem C6_missing_professor_file :
    loadProfessorAssignments none = ([], true) ∧
    (∀ (student_assignments : Assignments) (order : List String),
      (runPipeline student_assignments none order).1 = true) ∧
    (∀ (student_assignments : Assignments) (order : List String),
      (runPipeline student_assignments none order).2 =
        (runPipeline student_assignments (some []) order).2) ∧
    professor_conflict_graph_edges [] = (∅ : Finset (Finset String)) ∧
    (∀ student_assignments : Assignments,
      combined_conflict_graph_edges student_assignments [] =
        student_conflict_graph_edges student_assignments) := by
  refine ⟨rfl, fun sa order => rfl, fun sa order => rfl, rfl, fun sa => ?_⟩
  unfold combined_conflict_graph_edges
  rw [(rfl : professor_conflict_graph_edges [] = conflictEdges [])]
  exact Finset.union_empty _

/-- C7 (counterexample to the claim as stated): the typo correction is applied
only to student lists; with the canonical spelling in a student list and the
truncated spelling in a professor list, the node set contains both spellings
as two distinct nodes. -/
theorem C7_counterexample :
    (all_courses
      (corrected_student_assignments [("st", ["Introducción a ciencia de la computación"])])
      [("p", ["ntroducción a ciencia de la computación"])]).card = 2 ∧
    "ntroducción a ciencia de la computación" ∈ all_courses
      (corrected_student_assignments [("st", ["Introducción a ciencia de la computación"])])
      [("p", ["ntroducción a ciencia de la computación"])] ∧
    "Introducción a ciencia de la computación" ∈ all_courses
      (corrected_student_assignments [("st", ["Introducción a ciencia de la computación"])])
      [("p", ["ntroducción a ciencia de la computación"])] := by
  refine ⟨by decide, by decide, by decide⟩

/-- C7 (amended): normalization maps the known truncated name to its full
form and leaves every other name unchanged, but it is applied to the student
assignments only: after correction no student list contains the truncated
name, and the truncated name enters the node set only through a professor
list. -/
theorem C7_normalization :
    (normalizeCourse "ntroducción a ciencia de la computación" =
      "Introducción a ciencia de la computación") ∧
    (∀ c : String, c ≠ "ntroducción a ciencia de la computación" → normalizeCourse c = c) ∧
    (∀ (student_assignments : Assignments),
      ∀ p ∈ corrected_student_assignments student_assignments,
        "ntroducción a ciencia de la computación" ∉ (p.2 : List String)) ∧
    (∀ (student_assignments professor_assignments : Assignments),
      (∀ p ∈ professor_assignments,
        "ntroducción a ciencia de la computación" ∉ (p.2 : List String)) →
      "ntroducción a ciencia de la computación" ∉
        all_courses (corrected_student_assignments student_assignments)
          professor_assignments) := by
  refine ⟨rfl, ?_, ?_, ?_⟩
  · intro c hc
    unfold normalizeCourse
    rw [if_neg hc]
  · intro sa p hpmem hmem
    unfold corrected_student_assignments at hpmem
    obtain ⟨q, -, rfl⟩ := List.mem_map.mp hpmem
    obtain ⟨c, -, hc⟩ := List.mem_map.mp hmem
    unfold normalizeCourse at hc
    by_cases h : c = "ntroducción a ciencia de la computación"
    · rw [if_pos h] at hc
      exact absurd hc (by decide)
    · rw [if_neg h] at hc
      exact h hc
  · intro sa pa hpa hmem
    unfold all_courses at hmem
    rcases Finset.mem_union.mp hmem with h | h
    · rw [List.mem_toFinset] at h
      obtain ⟨p, hpmem, hin⟩ := List.mem_flatMap.mp h
      unfold corrected_student_assignments at hpmem
      obtain ⟨q, -, rfl⟩ := List.mem_map.mp hpmem
      obtain ⟨c, -, hc⟩ := List.mem_map.mp hin
      unfold normalizeCourse at hc
      by_cases hcc : c = "ntroducción a ciencia de la computación"
      · rw [if_pos hcc] at hc
        exact absurd hc (by decide)
      · rw [if_neg hcc] at hc
        exact hcc hc
    · rw [List.mem_toFinset] at h
      obtain ⟨p, hpmem, hin⟩ := List.mem_flatMap.mp h
      exact hpa p hpmem hin

theorem HE_sorted_nodes_eq (deg : String → Nat) :
    ∀ l, HE.sorted_nodes deg l = sorted_nodes deg l := by
  intro l
  induction l with
  | nil => rfl
  | cons a l ih =>
      simp only [HE.sorted_nodes, sorted_nodes]
      rw [ih]

theorem HE_whileColor_eq (used : Finset Nat) :
    ∀ fuel color, HE.whileColor used color fuel = whileColor used color fuel := by
  intro fuel
  induction fuel with
  | zero => intro color; rfl
  | succ f ih =>
      intro color
      simp only [HE.whileColor, whileColor]
      by_cases h : color ∈ used
      · rw [if_pos h, if_pos h, ih]
      · rw [if_neg h, if_neg h]

theorem HE_colorStep_eq (g : Graph) (col : List (String × Nat)) (node : String) :
    HE.colorStep g col node = colorStep g col node := by
  unfold HE.colorStep colorStep chosenColor
  simp only [HE_whileColor_eq]
  rfl

theorem HE_coloringLoop_eq (g : Graph) :
    ∀ l col, HE.coloringLoop g col l = coloringLoop g col l := by
  intro l
  induction l with
  | nil => intro col; rfl
  | cons n rest ih =>
      intro col
      simp only [HE.coloringLoop, coloringLoop]
      rw [HE_colorStep_eq]
      exact ih _

theorem HE_scheduleLoop_eq :
    ∀ (col : List (String × Nat)) (sched : List (Nat × List String)),
      HE.scheduleLoop sched col = scheduleLoop sched col := by
  intro col
  induction col with
  | nil => intro sched; rfl
  | cons e rest ih =>
      intro sched
      obtain ⟨c, t⟩ := e
      simp only [HE.scheduleLoop, scheduleLoop]
      exact ih _

theorem HE_runFromGraph_eq (g : Graph) (order : List String) :
    HE.runFromGraph g order = runFromGraph g order := by
  unfold HE.runFromGraph runFromGraph HE.coloring coloring HE.schedule schedule
  simp only [HE_sorted_nodes_eq, HE_coloringLoop_eq, HE_scheduleLoop_eq]
  rfl

theorem HE_runPipeline_eq (student_assignments professor_assignments : Assignments)
    (order : List String) :
    HE.runPipeline student_assignments professor_assignments order =
      (runPipeline student_assignments (some professor_assignments) order).2 := by
  rcases hg : HE.pipelineGraph student_assignments professor_assignments with e | g
  · have hg2 : pipelineGraph student_assignments professor_assignments =
        Except.error e := hg
    simp only [HE.runPipeline, runPipeline, loadProfessorAssignments, hg, hg2]
  · have hg2 : pipelineGraph student_assignments professor_assignments =
        Except.ok g := hg
    simp only [HE.runPipeline, runPipeline, loadProfessorAssignments, hg, hg2,
      HE_runFromGraph_eq]

/-- C10: on every input on which both scripts run (professor data present)
the original script and the revised script agree on the corrected student
map, the node set, the combined edge set, the constructed graph, the greedy
coloring, and the full output (schedule, room assignment, peak room count):
the revision changed only input-error handling and visualization. -/
theorem C10_versions_agree (student_assignments professor_assignments : Assignments)
    (order : List String) :
    HE.corrected_student_assignments student_assignments =
      corrected_student_assignments student_assignments ∧
    HE.all_courses (HE.corrected_student_assignments student_assignments)
        professor_assignments =
      all_courses (corrected_student_assignments student_assignments)
        professor_assignments ∧
    HE.combined_conflict_graph_edges student_assignments professor_assignments =
      combined_conflict_graph_edges student_assignments professor_assignments ∧
    HE.pipelineGraph student_assignments professor_assignments =
      pipelineGraph student_assignments professor_assignments ∧
    (∀ g : Graph, HE.coloring g (HE.sorted_nodes g.degree order) =
      coloring g (sorted_nodes g.degree order)) ∧
    HE.runPipeline student_assignments professor_assignments order =
      (runPipeline student_assignments (some professor_assignments) order).2 :=
  ⟨rfl, rfl, rfl, rfl,
    fun g => by
      unfold HE.coloring coloring
      rw [HE_sorted_nodes_eq, HE_coloringLoop_eq],
    HE_runPipeline_eq student_assignments professor_assignments order⟩

/-- Witness for C1 on a concrete two-course input with one conflict edge. -/
theorem C1_witness :
    ∃ ca cb,
      dictGet (coloring (⟨{"A", "B"}, {({"A", "B"} : Finset String)}⟩ : Graph)
        (sorted_nodes (Graph.degree (⟨{"A", "B"}, {({"A", "B"} : Finset String)}⟩ : Graph))
          ["A", "B"])) "A" = some ca ∧
      dictGet (coloring (⟨{"A", "B"}, {({"A", "B"} : Finset String)}⟩ : Graph)
        (sorted_nodes (Graph.degree (⟨{"A", "B"}, {({"A", "B"} : Finset String)}⟩ : Graph))
          ["A", "B"])) "B" = some cb ∧ ca ≠ cb :=
  C1_proper_coloring [("s", ["A", "B"])] [] ["A", "B"]
    (⟨{"A", "B"}, {({"A", "B"} : Finset String)}⟩ : Graph) (by decide) (by decide)
    "A" "B" (by decide)

/-- Witness for C2 on a concrete input. -/
theorem C2_witness :
    ({"X", "Y"} : Finset String) ∈ combined_conflict_graph_edges [("s", ["X", "Y"])] [] ↔
      ∃ x y, x ≠ y ∧ ({"X", "Y"} : Finset String) = ({x, y} : Finset String) ∧
        (sharesPerson (corrected_student_assignments [("s", ["X", "Y"])]) x y ∨
          sharesPerson [] x y) :=
  C2_conflict_exactness [("s", ["X", "Y"])] [] (by decide) (by decide) {"X", "Y"}

/-- Witness for C3 on a one-node edgeless graph. -/
theorem C3_witness :
    (∃ c, dictGet (coloring (⟨{"A"}, ∅⟩ : Graph)
        (sorted_nodes (Graph.degree (⟨{"A"}, ∅⟩ : Graph)) ["A"])) "A" = some c ∧
      1 ≤ c ∧
      c ∉ used_neighbor_colors (⟨{"A"}, ∅⟩ : Graph) (coloring (⟨{"A"}, ∅⟩ : Graph) []) "A" ∧
      ∀ m, 1 ≤ m →
        m ∉ used_neighbor_colors (⟨{"A"}, ∅⟩ : Graph) (coloring (⟨{"A"}, ∅⟩ : Graph) []) "A" →
        c ≤ m) ∧
    ((⟨{"A"}, ∅⟩ : Graph).edges = ∅ →
      ∀ x ∈ ["A"], dictGet (coloring (⟨{"A"}, ∅⟩ : Graph)
        (sorted_nodes (Graph.degree (⟨{"A"}, ∅⟩ : Graph)) ["A"])) x = some 1) :=
  C3_smallest_free_slot (⟨{"A"}, ∅⟩ : Graph) ["A"] [] [] "A" (by decide) (by decide)

/-- Witness for C4 on a concrete coloring with two slots. -/
theorem C4_witness :
    ∃ r, (1, r) ∈ room_assignments (schedule [("A", 1), ("B", 1), ("C", 2)]) ∧
      r.map Prod.fst = ["A", "B"] ∧ (r.map Prod.snd).Nodup ∧
      r.length = (["A", "B"] : List String).length ∧
      ((["A", "B"] : List String) ≠ [] → "Aula 1" ∈ r.map Prod.snd) :=
  (C4_room_allocation [("A", 1), ("B", 1), ("C", 2)]).2.2 1 ["A", "B"] (by decide)

/-- Witness for C7 on a pass-through name and an input whose professor map is
empty. -/
theorem C7_witness :
    normalizeCourse "X" = "X" ∧
    "ntroducción a ciencia de la computación" ∉
      all_courses (corrected_student_assignments
        [("st", ["ntroducción a ciencia de la computación"])]) [] :=
  ⟨C7_normalization.2.1 "X" (by decide),
    C7_normalization.2.2.2 [("st", ["ntroducción a ciencia de la computación"])] []
      (by decide)⟩

/-- Witness for C8 on a concrete input where one pair is shared by a student
and an instructor. -/
theorem C8_witness :
    (∃ g, pipelineGraph [("s", ["X", "Y"])] [("p", ["X", "Y"])] = Except.ok g ∧
      (∀ x : String, ({x} : Finset String) ∉ g.edges) ∧
      (∀ e ∈ g.edges, e.card = 2) ∧
      g.edges = combined_conflict_graph_edges [("s", ["X", "Y"])] [("p", ["X", "Y"])]) ∧
    (∀ e, e ∈ student_conflict_graph_edges [("s", ["X", "Y"])] →
      e ∈ professor_conflict_graph_edges [("p", ["X", "Y"])] →
      edgeOrigin (student_conflict_graph_edges [("s", ["X", "Y"])])
        (professor_conflict_graph_edges [("p", ["X", "Y"])]) e = Origin.Both) :=
  C8_simple_graph [("s", ["X", "Y"])] [("p", ["X", "Y"])] (by decide) (by decide)

/-- Witness for C9 on a one-node edgeless graph. -/
theorem C9_witness : (1 : Nat) ≤ 1 + Graph.degree (⟨{"A"}, ∅⟩ : Graph) "A" :=
  C9_slot_bound (⟨{"A"}, ∅⟩ : Graph) ["A"] "A" 1 (by decide)
